import Mathlib

set_option maxRecDepth 40000

/-!
# Verification of the `biost` 3-D vector library

The repository implements a single value type `Vector3d` with three `f32`
fields `x`, `y`, `z` and componentwise arithmetic: `Add`, `AddAssign`,
`Sub`, `SubAssign`, `Mul<f32>`, `MulAssign<f32>`, `Div<f32>`,
`DivAssign<f32>` (`src/src/lib.rs`).

The scalar type `f32` is modelled faithfully as IEEE-754 binary32 with
rounding to nearest, ties to even: a float is a NaN (payloads collapsed to a
single NaN, as no operation in the repository distinguishes them), a signed
infinity, a signed zero, or a finite nonzero number `±m·2^e` in canonical
form.  Every arithmetic operation computes the exact rational result and
rounds it, exactly as IEEE-754 prescribes.  All definitions compute with
plain `Int`/`Nat` arithmetic so the kernel can evaluate them on concrete
inputs; an abstraction into `ℚ` is used for the symbolic proofs.
-/

/-- `tpow k = 2^k` as an integer, by structural recursion so that the kernel
evaluates it cheaply. -/
def tpow : Nat → Int
  | 0 => 1
  | k + 1 => 2 * tpow k

/-- An exact (unreduced) fraction `n / d`; all constructions keep `d > 0`.
Intermediate exact values of IEEE-754 operations live here: sums, products
and quotients of binary32 values are rational. -/
structure Ex where
  n : Int
  d : Int
deriving DecidableEq

/-- Exact sum. -/
def Ex.add (a b : Ex) : Ex := ⟨a.n * b.d + b.n * a.d, a.d * b.d⟩

/-- Exact difference. -/
def Ex.sub (a b : Ex) : Ex := ⟨a.n * b.d - b.n * a.d, a.d * b.d⟩

/-- Exact product. -/
def Ex.mul (a b : Ex) : Ex := ⟨a.n * b.n, a.d * b.d⟩

/-- Exact quotient, keeping the denominator positive.  (Division by an exact
zero is never reached: `fdiv` filters zero divisors beforehand.) -/
def Ex.div (a b : Ex) : Ex :=
  if 0 < b.n then ⟨a.n * b.d, a.d * b.n⟩
  else if b.n < 0 then ⟨-(a.n * b.d), a.d * (-b.n)⟩
  else ⟨0, 1⟩

/-- Round the fraction `n / d` (`d > 0`) to the nearest natural number,
ties to even. -/
def rheN (n d : Nat) : Nat :=
  let n0 := n / d
  let r := n % d
  if 2 * r < d then n0
  else if d < 2 * r then n0 + 1
  else if n0 % 2 = 0 then n0 else n0 + 1

/-- The IEEE-754 binary32 value space: a single NaN (payloads are not
distinguished by any operation of the repository), signed infinities, signed
zeros, and finite nonzero values `±m·2^e` in canonical form (see `validb`).
The sign flag is `true` for negative. -/
inductive F32 where
  | nan : F32
  | inf : Bool → F32
  | zero : Bool → F32
  | fin : Bool → Nat → Int → F32
deriving DecidableEq

/-- Canonical-form invariant of finite nonzero binary32 data: the
significand `m` is nonzero and below `2^24`, the scale `e` (binary exponent
of the least significant bit) lies in `[-149, 104]`, and subnormal
significands (`m < 2^23`) occur only at the bottom scale `e = -149`.
These are exactly the values representable as IEEE-754 binary32. -/
def validb (m : Nat) (e : Int) : Bool :=
  decide (1 ≤ m) && decide (m < 2 ^ 24) && decide (-149 ≤ e) &&
    decide (e ≤ 104) && (decide (2 ^ 23 ≤ m) || decide (e = -149))

/-- The exact rational magnitude-with-sign of a finite binary32 datum, as an
exact fraction: `±m·2^e`. -/
def rvalEx (s : Bool) (m : Nat) (e : Int) : Ex :=
  let n : Int := if s then -(m : Int) else (m : Int)
  if 0 ≤ e then ⟨n * tpow e.toNat, 1⟩ else ⟨n, tpow (-e).toNat⟩

/-- Exact value of a non-special float (zeros count as `0`; `nan`/`inf` are
never passed here by the operations). -/
def fvalEx : F32 → Ex
  | .zero _ => ⟨0, 1⟩
  | .fin s m e => rvalEx s m e
  | _ => ⟨0, 1⟩

/-- Fuel-bounded upward binade search.  The value being rounded is
`q = n/d`; writing `k = E + 127` for the shifted binade exponent, the
callers maintain `A = n·2^126` and `P = 2^k·d`, so that `A < P` decides
`q < 2^(E+1)`; `P` is doubled incrementally so each step is one
multiplication and one comparison of naturals.  Returns the smallest
`k ≥ start` with `A < 2^k·d`, given enough fuel. -/
def findK (A : Nat) : Nat → Nat → Nat → Nat
  | k, _, 0 => k
  | k, P, fuel + 1 => if A < P then k else findK A (k + 1) (2 * P) fuel

/-- The rounded integer significand of `n / d` in binade `k`: the fraction
divided by the grid spacing `2^(k-150)`, rounded to nearest, ties to
even. -/
def sigOf (n d k : Nat) : Nat :=
  if 150 ≤ k then rheN n (d * 2 ^ (k - 150)) else rheN (n * 2 ^ (150 - k)) d

/-- Re-encode a rounded significand `p` on the grid of binade `k` (spacing
`2^(k-150)`): zero significands give `+0`, a full significand `2^24`
carries into the next binade, and a carry out of binade `k = 254`
(exponent `127`) overflows to `+∞`. -/
def encodeF (k p : Nat) : F32 :=
  if p = 0 then F32.zero false
  else if p < 2 ^ 24 then F32.fin false p ((k : Int) - 150)
  else if k ≤ 253 then F32.fin false (2 ^ 23) ((k : Int) - 149)
  else F32.inf false

/-- Round the positive fraction `n / d` (`n, d > 0`) to binary32,
nearest-even: find the binade — the smallest `k ≥ 1` with
`n/d < 2^(k-126)`, where starting at `k = 1` (binade exponent `-126`)
realises the gradual-underflow clamp of IEEE-754 — round the significand on
that binade's grid, and re-encode.  Values at or beyond `2^128` overflow to
`+∞` directly. -/
def roundPosN (n d : Nat) : F32 :=
  if n < 2 ^ 128 * d then
    let k := findK (n * 2 ^ 126) 1 (2 * d) 254
    encodeF k (sigOf n d k)
  else F32.inf false

/-- IEEE-754 negation: flip the sign bit. -/
def fneg : F32 → F32
  | .nan => .nan
  | .inf s => .inf (!s)
  | .zero s => .zero (!s)
  | .fin s m e => .fin (!s) m e

/-- Round a (nonzero) exact fraction to binary32, nearest-even.  Rounding is
sign-symmetric, so negative values round through their magnitude. -/
def roundEx (q : Ex) : F32 :=
  if q.n < 0 then fneg (roundPosN (-q.n).toNat q.d.toNat)
  else roundPosN q.n.toNat q.d.toNat

/-- The finite-operand case of addition: the exactly computed sum, rounded
to nearest-even; an exact zero sum yields `+0` (round-to-nearest mode). -/
def faddFin (x y : F32) : F32 :=
  if (Ex.add (fvalEx x) (fvalEx y)).n = 0 then F32.zero false
  else roundEx (Ex.add (fvalEx x) (fvalEx y))

/-- The finite-operand case of subtraction: the exactly computed difference,
rounded to nearest-even; an exact zero difference yields `+0`. -/
def fsubFin (x y : F32) : F32 :=
  if (Ex.sub (fvalEx x) (fvalEx y)).n = 0 then F32.zero false
  else roundEx (Ex.sub (fvalEx x) (fvalEx y))

/-- IEEE-754 binary32 addition (`+` on Rust `f32`): NaN and infinity
propagation, the nearest-even signed-zero rules, and otherwise the exactly
computed sum rounded to nearest-even. -/
def fadd : F32 → F32 → F32
  | .nan, _ => .nan
  | _, .nan => .nan
  | .inf s1, .inf s2 => if s1 = s2 then .inf s1 else .nan
  | .inf s, _ => .inf s
  | _, .inf s => .inf s
  | .zero s1, .zero s2 => .zero (s1 && s2)
  | x, y => faddFin x y

/-- IEEE-754 binary32 subtraction (`-` on Rust `f32`); identical to adding
the negated second operand, with the corresponding signed-zero rules. -/
def fsub : F32 → F32 → F32
  | .nan, _ => .nan
  | _, .nan => .nan
  | .inf s1, .inf s2 => if s1 = s2 then .nan else .inf s1
  | .inf s, _ => .inf s
  | _, .inf s => .inf (!s)
  | .zero s1, .zero s2 => .zero (s1 && !s2)
  | x, y => fsubFin x y

/-- IEEE-754 binary32 multiplication (`*` on Rust `f32`): result sign is the
exclusive or of the operand signs; `∞·0` is NaN; finite nonzero products are
computed exactly and rounded. -/
def fmul : F32 → F32 → F32
  | .nan, _ => .nan
  | _, .nan => .nan
  | .inf s1, .inf s2 => .inf (Bool.xor s1 s2)
  | .inf _, .zero _ => .nan
  | .zero _, .inf _ => .nan
  | .inf s1, .fin s2 _ _ => .inf (Bool.xor s1 s2)
  | .fin s1 _ _, .inf s2 => .inf (Bool.xor s1 s2)
  | .zero s1, .zero s2 => .zero (Bool.xor s1 s2)
  | .zero s1, .fin s2 _ _ => .zero (Bool.xor s1 s2)
  | .fin s1 _ _, .zero s2 => .zero (Bool.xor s1 s2)
  | .fin s1 m1 e1, .fin s2 m2 e2 =>
    roundEx (Ex.mul (rvalEx s1 m1 e1) (rvalEx s2 m2 e2))

/-- IEEE-754 binary32 division (`/` on Rust `f32`): `0/0`, `∞/∞` are NaN,
division of a finite nonzero value by zero is a signed infinity, division by
infinity is a signed zero, and finite nonzero quotients are computed exactly
and rounded. -/
def fdiv : F32 → F32 → F32
  | .nan, _ => .nan
  | _, .nan => .nan
  | .inf _, .inf _ => .nan
  | .inf s1, .zero s2 => .inf (Bool.xor s1 s2)
  | .inf s1, .fin s2 _ _ => .inf (Bool.xor s1 s2)
  | .zero _, .zero _ => .nan
  | .zero s1, .inf s2 => .zero (Bool.xor s1 s2)
  | .zero s1, .fin s2 _ _ => .zero (Bool.xor s1 s2)
  | .fin s1 _ _, .inf s2 => .zero (Bool.xor s1 s2)
  | .fin s1 _ _, .zero s2 => .inf (Bool.xor s1 s2)
  | .fin s1 m1 e1, .fin s2 m2 e2 =>
    roundEx (Ex.div (rvalEx s1 m1 e1) (rvalEx s2 m2 e2))

/-- IEEE-754 equality (`==` on Rust `f32`): NaN compares unequal to
everything (itself included), infinities compare by sign, and finite values
(zeros included) compare by exact value, so `+0 == -0`. -/
def feq : F32 → F32 → Bool
  | .nan, _ => false
  | _, .nan => false
  | .inf s1, .inf s2 => decide (s1 = s2)
  | .inf _, _ => false
  | _, .inf _ => false
  | a, b =>
    decide ((fvalEx a).n * (fvalEx b).d = (fvalEx b).n * (fvalEx a).d)

/-- `true` unless the float is a NaN. -/
def noNaNF : F32 → Bool
  | .nan => false
  | _ => true

/-- `true` when the float is finite (a zero or a finite nonzero value). -/
def finiteF : F32 → Bool
  | .zero _ => true
  | .fin _ _ _ => true
  | _ => false

/-- `true` when the float is an infinity or a NaN. -/
def infOrNaN : F32 → Bool
  | .nan => true
  | .inf _ => true
  | _ => false

/-- Well-formedness of a float: finite nonzero data are in canonical
binary32 form.  Every value produced by the Rust `f32` type satisfies
this. -/
def validF : F32 → Bool
  | .fin _ m e => validb m e
  | _ => true

/-- The binary32 nearest value of a natural number; used to write the
concrete literals of the spec's test scenarios (`1.0`, `2.0`, ...). -/
def fofNat (n : Nat) : F32 := roundPosN n 1

/-- The model of the repository's `Vector3d` struct: three `f32` fields. -/
structure Vector3d where
  x : F32
  y : F32
  z : F32
deriving DecidableEq

/-- `Vector3d::new(x, y, z)`: stores the three coordinates exactly as
supplied. -/
def Vector3d.new (x y z : F32) : Vector3d := ⟨x, y, z⟩

/-- `Vector3d::zero()`: `new(0.0, 0.0, 0.0)`. -/
def Vector3d.zero : Vector3d :=
  Vector3d.new (F32.zero false) (F32.zero false) (F32.zero false)

/-- `impl ops::Add for Vector3d` (`lib.rs:48-53`):
`Self::new(self.x + vector.x, self.y + vector.y, self.z + vector.z)`. -/
def Vector3d.add (a b : Vector3d) : Vector3d :=
  Vector3d.new (fadd a.x b.x) (fadd a.y b.y) (fadd a.z b.z)

/-- `impl ops::AddAssign for Vector3d` (`lib.rs:55-61`): the receiver state
after `self.x += vector.x; self.y += vector.y; self.z += vector.z`. -/
def Vector3d.add_assign (a b : Vector3d) : Vector3d :=
  { a with x := fadd a.x b.x, y := fadd a.y b.y, z := fadd a.z b.z }

/-- `impl ops::Sub for Vector3d` (`lib.rs:63-68`). -/
def Vector3d.sub (a b : Vector3d) : Vector3d :=
  Vector3d.new (fsub a.x b.x) (fsub a.y b.y) (fsub a.z b.z)

/-- `impl ops::SubAssign for Vector3d` (`lib.rs:70-76`). -/
def Vector3d.sub_assign (a b : Vector3d) : Vector3d :=
  { a with x := fsub a.x b.x, y := fsub a.y b.y, z := fsub a.z b.z }

/-- `impl ops::Mul<f32> for Vector3d` (`lib.rs:78-83`). -/
def Vector3d.mul (a : Vector3d) (value : F32) : Vector3d :=
  Vector3d.new (fmul a.x value) (fmul a.y value) (fmul a.z value)

/-- `impl ops::MulAssign<f32> for Vector3d` (`lib.rs:85-91`). -/
def Vector3d.mul_assign (a : Vector3d) (value : F32) : Vector3d :=
  { a with x := fmul a.x value, y := fmul a.y value, z := fmul a.z value }

/-- `impl ops::Div<f32> for Vector3d` (`lib.rs:93-98`). -/
def Vector3d.div (a : Vector3d) (value : F32) : Vector3d :=
  Vector3d.new (fdiv a.x value) (fdiv a.y value) (fdiv a.z value)

/-- `impl ops::DivAssign<f32> for Vector3d` (`lib.rs:100-106`). -/
def Vector3d.div_assign (a : Vector3d) (value : F32) : Vector3d :=
  { a with x := fdiv a.x value, y := fdiv a.y value, z := fdiv a.z value }

/-- Componentwise `f32` equality of vectors (the `==` the spec's testable
properties use). -/
def vecEq (a b : Vector3d) : Bool :=
  feq a.x b.x && feq a.y b.y && feq a.z b.z

/-- All three components are non-NaN. -/
def noNaNV (v : Vector3d) : Bool := noNaNF v.x && noNaNF v.y && noNaNF v.z

/-- All three components are finite. -/
def finiteV (v : Vector3d) : Bool := finiteF v.x && finiteF v.y && finiteF v.z

/-- All three components are well-formed binary32 values. -/
def validV (v : Vector3d) : Bool := validF v.x && validF v.y && validF v.z

/-- The scalar `-1.0` in the model: significand `2^23`, scale `-23`. -/
def fnegone : F32 := F32.fin true (2 ^ 23) (-23)

/-- The component `x` scales exactly by `2^k`: it is a zero, or a finite
value in canonical form both before and after adding `k` to its scale.
(For a power-of-two scalar with significand `2^23` and scale `es`, take
`k = es + 23`.) -/
def p2ok (x : F32) (k : Int) : Bool :=
  match x with
  | F32.zero _ => true
  | F32.fin _ m e => validb m e && validb m (e + k)
  | _ => false

/-- All three components scale exactly by `2^k`. -/
def p2okV (v : Vector3d) (k : Int) : Bool :=
  p2ok v.x k && p2ok v.y k && p2ok v.z k

/-- The test vector `(1, 2, 3)` of the spec's concrete scenarios. -/
def v123 : Vector3d := Vector3d.new (fofNat 1) (fofNat 2) (fofNat 3)

/-- The test vector `(2, 4, 6)`. -/
def v246 : Vector3d := Vector3d.new (fofNat 2) (fofNat 4) (fofNat 6)

/-- The test vector `(3, 6, 9)`. -/
def v369 : Vector3d := Vector3d.new (fofNat 3) (fofNat 6) (fofNat 9)

/-- A vector whose first component is NaN. -/
def vNaN : Vector3d := Vector3d.new F32.nan (F32.zero false) (F32.zero false)

/-- The vector `(2^127, 0, 0)`, used in the overflow counterexample. -/
def vBig : Vector3d :=
  Vector3d.new (F32.fin false (2 ^ 23) 104) (F32.zero false) (F32.zero false)

/-- The scalar `4.0`: significand `2^23`, scale `-21`. -/
def ffour : F32 := F32.fin false (2 ^ 23) (-21)

/-! ## Abstraction of the exact layer into `ℚ` -/

/-- The rational value of an exact fraction. -/
def toQ (a : Ex) : ℚ := (a.n : ℚ) / (a.d : ℚ)

/-- The rational value of a finite binary32 datum: `±m·2^e`. -/
def rvalQ (s : Bool) (m : Nat) (e : Int) : ℚ :=
  (if s then -1 else 1) * (m : ℚ) * 2 ^ e

/-- The rational value of a finite float (`0` on `nan`/`inf`, which carry no
rational value). -/
def fvalQ : F32 → ℚ
  | .zero _ => 0
  | .fin s m e => rvalQ s m e
  | _ => 0

theorem tpow_eq (k : Nat) : tpow k = 2 ^ k := by
  induction k with
  | zero => rfl
  | succ k ih => rw [tpow, ih, pow_succ]; ring

theorem tpow_pos (k : Nat) : 0 < tpow k := by
  rw [tpow_eq]; positivity

theorem rheN_exact (m d : Nat) (hd : 0 < d) : rheN (m * d) d = m := by
  unfold rheN
  rw [Nat.mul_div_cancel _ hd, Nat.mul_mod_left]
  simp [hd]

theorem findK_ge (A : Nat) :
    ∀ (fuel k P : Nat), k ≤ findK A k P fuel := by
  intro fuel
  induction fuel with
  | zero => intro k P; simp [findK]
  | succ f ih =>
    intro k P
    rw [findK]
    split
    · exact Nat.le_refl k
    · exact Nat.le_trans (Nat.le_succ k) (ih (k + 1) (2 * P))

theorem findK_upper (A d : Nat) :
    ∀ (fuel k P : Nat), P = 2 ^ k * d → A < 2 ^ (k + fuel) * d →
      A < 2 ^ (findK A k P fuel) * d := by
  intro fuel
  induction fuel with
  | zero => intro k P hP h; simpa [findK] using h
  | succ f ih =>
    intro k P hP h
    rw [findK]
    split
    · rename_i hc; rw [← hP]; exact hc
    · refine ih (k + 1) (2 * P) ?_ ?_
      · rw [hP, pow_succ]; ring
      · have he : k + (f + 1) = (k + 1) + f := by omega
        rw [he] at h; exact h

theorem findK_lower (A d : Nat) :
    ∀ (fuel k P : Nat), P = 2 ^ k * d → (k = 1 ∨ 2 ^ (k - 1) * d ≤ A) →
      (findK A k P fuel = 1 ∨ 2 ^ (findK A k P fuel - 1) * d ≤ A) := by
  intro fuel
  induction fuel with
  | zero => intro k P hP h; simpa [findK] using h
  | succ f ih =>
    intro k P hP h
    rw [findK]
    split
    · exact h
    · rename_i hc
      refine ih (k + 1) (2 * P) ?_ (Or.inr ?_)
      · rw [hP, pow_succ]; ring
      · have hs : k + 1 - 1 = k := by omega
        rw [hs, ← hP]; omega

/-- Rounding is the identity on every representable value: a fraction whose
exact value is a canonical-form binary32 number `m·2^e` rounds to exactly
that number. -/
theorem roundPosN_repr (n d m : Nat) (e : Int) (hd : 0 < d)
    (hv : validb m e = true) (hq : (n : ℚ) / (d : ℚ) = (m : ℚ) * 2 ^ e) :
    roundPosN n d = F32.fin false m e := by
  simp only [validb, Bool.and_eq_true, Bool.or_eq_true, decide_eq_true_eq] at hv
  obtain ⟨⟨⟨⟨hm1, hm2⟩, he1⟩, he2⟩, hme⟩ := hv
  have hdQ : (d : ℚ) ≠ 0 := Nat.cast_ne_zero.mpr hd.ne'
  rw [div_eq_iff hdQ] at hq
  -- the split of `e` into nonnegative and nonpositive parts
  have hba : ∃ a b : Nat, ((b : Int) - (a : Int) = e ∧ a = (-e).toNat ∧ b = e.toNat) := by
    exact ⟨(-e).toNat, e.toNat, by
      constructor
      · rcases le_or_lt 0 e with h | h
        · rw [Int.toNat_of_nonneg h, Int.toNat_of_nonpos (by omega)]; omega
        · rw [Int.toNat_of_nonneg (by omega : (0:Int) ≤ -e),
            Int.toNat_of_nonpos (le_of_lt h)]; omega
      · exact ⟨rfl, rfl⟩⟩
  obtain ⟨a, b, hba, ha, hb⟩ := hba
  -- the exact-value equation, over the naturals
  have hkey : n * 2 ^ a = m * 2 ^ b * d := by
    have h2 : (n : ℚ) * 2 ^ (a : Int) = (m : ℚ) * 2 ^ (b : Int) * d := by
      rw [hq]
      have hz : (2 : ℚ) ^ (b : Int) = 2 ^ e * 2 ^ (a : Int) := by
        rw [← zpow_add₀ (two_ne_zero : (2:ℚ) ≠ 0)]
        congr 1
        omega
      rw [hz]; ring
    have h3 : ((n * 2 ^ a : Nat) : ℚ) = ((m * 2 ^ b * d : Nat) : ℚ) := by
      push_cast
      rw [← zpow_natCast (2:ℚ) a, ← zpow_natCast (2:ℚ) b]
      exact h2
    exact_mod_cast h3
  have hb104 : b ≤ 104 + a := by omega
  -- the overflow guard passes
  have hgd : n < 2 ^ 128 * d := by
    have h2 : m * 2 ^ b < 2 ^ (128 + a) :=
      calc m * 2 ^ b < 2 ^ 24 * 2 ^ b :=
            mul_lt_mul_of_pos_right hm2 (Nat.two_pow_pos b)
        _ = 2 ^ (24 + b) := by rw [pow_add]
        _ ≤ 2 ^ (128 + a) := Nat.pow_le_pow_right (by norm_num) (by omega)
    have h1 : n * 2 ^ a < (2 ^ 128 * d) * 2 ^ a := by
      rw [hkey]
      calc m * 2 ^ b * d < 2 ^ (128 + a) * d :=
            mul_lt_mul_of_pos_right h2 hd
        _ = (2 ^ 128 * d) * 2 ^ a := by rw [pow_add]; ring
    exact lt_of_mul_lt_mul_right h1 (Nat.zero_le _)
  -- the shifted binade exponent of `m·2^e`
  have hK : ((e + 150).toNat : Int) = e + 150 := Int.toNat_of_nonneg (by omega)
  -- the search condition characterises it
  have hcond : ∀ k, 1 ≤ k →
      (n * 2 ^ 126 < 2 ^ k * d ↔ (e + 150).toNat ≤ k) := by
    intro k hk
    have e1 : n * 2 ^ 126 * 2 ^ a = m * 2 ^ (b + 126) * d := by
      have h : n * 2 ^ 126 * 2 ^ a = (n * 2 ^ a) * 2 ^ 126 := by ring
      rw [h, hkey, pow_add]; ring
    have e2 : (2 ^ k * d) * 2 ^ a = 2 ^ (k + a) * d := by rw [pow_add]; ring
    constructor
    · intro h
      have h' : n * 2 ^ 126 * 2 ^ a < (2 ^ k * d) * 2 ^ a :=
        mul_lt_mul_of_pos_right h (Nat.two_pow_pos a)
      rw [e1, e2] at h'
      have h'' : m * 2 ^ (b + 126) < 2 ^ (k + a) :=
        lt_of_mul_lt_mul_right h' (Nat.zero_le d)
      rcases Nat.lt_or_ge m (2 ^ 23) with hsub | hnorm
      · rcases hme with hno | hyes
        · omega
        · omega
      · have h3 : 2 ^ (23 + (b + 126)) ≤ m * 2 ^ (b + 126) := by
          rw [pow_add 2 23 (b + 126)]; exact Nat.mul_le_mul_right _ hnorm
        have h4 : 2 ^ (23 + (b + 126)) < 2 ^ (k + a) := lt_of_le_of_lt h3 h''
        have h5 : 23 + (b + 126) < k + a :=
          (Nat.pow_lt_pow_iff_right (by norm_num)).mp h4
        omega
    · intro hKk
      have h1 : m * 2 ^ (b + 126) < 2 ^ (24 + (b + 126)) := by
        rw [pow_add 2 24 (b + 126)]
        exact mul_lt_mul_of_pos_right hm2 (Nat.two_pow_pos _)
      have h2 : (24 + (b + 126)) ≤ k + a := by omega
      have h3 : m * 2 ^ (b + 126) < 2 ^ (k + a) :=
        lt_of_lt_of_le h1 (Nat.pow_le_pow_right (by norm_num) h2)
      have h4 : m * 2 ^ (b + 126) * d < 2 ^ (k + a) * d :=
        mul_lt_mul_of_pos_right h3 hd
      rw [← e1, ← e2] at h4
      exact lt_of_mul_lt_mul_right h4 (Nat.zero_le _)
  -- the search finds it
  have hge1 : 1 ≤ findK (n * 2 ^ 126) 1 (2 * d) 254 := findK_ge _ 254 1 (2 * d)
  have hup : n * 2 ^ 126 < 2 ^ (findK (n * 2 ^ 126) 1 (2 * d) 254) * d := by
    refine findK_upper (n * 2 ^ 126) d 254 1 (2 * d) (by norm_num) ?_
    calc n * 2 ^ 126 < (2 ^ 128 * d) * 2 ^ 126 :=
          mul_lt_mul_of_pos_right hgd (Nat.two_pow_pos _)
      _ = 2 ^ 254 * d := by rw [show (254:Nat) = 128 + 126 from rfl, pow_add]; ring
      _ ≤ 2 ^ (1 + 254) * d := mul_le_mul_right' (Nat.pow_le_pow_right (by norm_num) (by omega)) d
  have hfind : findK (n * 2 ^ 126) 1 (2 * d) 254 = (e + 150).toNat := by
    have hKk0 : (e + 150).toNat ≤ findK (n * 2 ^ 126) 1 (2 * d) 254 :=
      (hcond _ hge1).mp hup
    rcases findK_lower (n * 2 ^ 126) d 254 1 (2 * d) (by norm_num) (Or.inl rfl)
      with h1 | h2
    · omega
    · rcases Nat.lt_or_ge 1 (findK (n * 2 ^ 126) 1 (2 * d) 254) with hgt | hle
      · have hnlt : ¬ (n * 2 ^ 126 < 2 ^ (findK (n * 2 ^ 126) 1 (2 * d) 254 - 1) * d) :=
          not_lt.mpr h2
        have hnK : ¬ ((e + 150).toNat ≤ findK (n * 2 ^ 126) 1 (2 * d) 254 - 1) :=
          fun hc => hnlt ((hcond _ (by omega)).mpr hc)
        omega
      · omega
  -- the rounded significand is `m`
  have hsig : sigOf n d (e + 150).toNat = m := by
    unfold sigOf
    rcases le_or_lt 150 (e + 150).toNat with h150 | h150
    · rw [if_pos h150]
      have hea : 0 ≤ e := by omega
      have haz : a = 0 := by rw [ha]; exact Int.toNat_of_nonpos (by omega)
      have hbe : (b : Int) = e := by omega
      have hbK : b = (e + 150).toNat - 150 := by omega
      rw [← hbK]
      have hn' : n = m * (d * 2 ^ b) := by
        have := hkey
        rw [haz, pow_zero, mul_one] at this
        rw [this]; ring
      rw [hn']
      exact rheN_exact m (d * 2 ^ b) (by positivity)
    · rw [if_neg (not_le.mpr h150)]
      have hea : e < 0 := by omega
      have hbz : b = 0 := by rw [hb]; exact Int.toNat_of_nonpos (by omega)
      have haK : (a : Int) = -e := by omega
      have haK' : 150 - (e + 150).toNat = a := by omega
      rw [haK']
      have hn' : n * 2 ^ a = m * d := by
        rw [hkey, hbz]; ring
      rw [hn']
      exact rheN_exact m d hd
  -- assemble
  unfold roundPosN
  rw [if_pos hgd]
  simp only [hfind, hsig]
  unfold encodeF
  rw [if_neg (by omega : ¬ m = 0), if_pos hm2]
  rw [show (((e + 150).toNat : Nat) : Int) - 150 = e from by omega]

theorem tpow_castQ (k : Nat) : ((tpow k : Int) : ℚ) = (2:ℚ) ^ k := by
  rw [tpow_eq]; push_cast; ring

theorem zpow_toNat_of_nonneg (e : Int) (h : 0 ≤ e) :
    (2:ℚ) ^ e = (2:ℚ) ^ (e.toNat) := by
  rw [← zpow_natCast (2:ℚ) e.toNat, Int.toNat_of_nonneg h]

theorem zpow_toNat_of_neg (e : Int) (h : e < 0) :
    (2:ℚ) ^ e = ((2:ℚ) ^ ((-e).toNat))⁻¹ := by
  rw [← zpow_natCast (2:ℚ) (-e).toNat, Int.toNat_of_nonneg (by omega),
    ← zpow_neg]
  congr 1
  omega

theorem rvalEx_d_pos (s : Bool) (m : Nat) (e : Int) : 0 < (rvalEx s m e).d := by
  rcases le_or_lt 0 e with h | h
  · simp [rvalEx, h]
  · simp [rvalEx, not_le.mpr h, tpow_pos]

theorem rvalEx_n_of_false (m : Nat) (e : Int) (hm : 1 ≤ m) :
    0 < (rvalEx false m e).n := by
  have hm' : (0:Int) < (m : Int) := by exact_mod_cast hm
  rcases le_or_lt 0 e with h | h
  · have hx : (rvalEx false m e).n = (m : Int) * tpow e.toNat := by
      simp [rvalEx, h]
    rw [hx]
    exact mul_pos hm' (tpow_pos _)
  · have hx : (rvalEx false m e).n = (m : Int) := by
      simp [rvalEx, not_le.mpr h]
    rw [hx]
    exact hm'

theorem rvalEx_n_of_true (m : Nat) (e : Int) (hm : 1 ≤ m) :
    (rvalEx true m e).n < 0 := by
  have hm' : (0:Int) < (m : Int) := by exact_mod_cast hm
  have ht := mul_pos hm' (tpow_pos e.toNat)
  rcases le_or_lt 0 e with h | h
  · have hx : (rvalEx true m e).n = -((m : Int) * tpow e.toNat) := by
      simp [rvalEx, h]
    rw [hx]
    linarith
  · have hx : (rvalEx true m e).n = -(m : Int) := by
      simp [rvalEx, not_le.mpr h]
    rw [hx]
    linarith

theorem rvalEx_toQ (s : Bool) (m : Nat) (e : Int) :
    toQ (rvalEx s m e) = rvalQ s m e := by
  unfold rvalEx toQ rvalQ
  rcases le_or_lt 0 e with h | h
  · rw [if_pos h]
    simp only [Int.cast_mul, Int.cast_one, div_one]
    cases s <;> simp [tpow_castQ, zpow_toNat_of_nonneg e h]
  · rw [if_neg (not_le.mpr h)]
    simp only []
    cases s <;>
      simp [tpow_castQ, zpow_toNat_of_neg e h, div_eq_mul_inv]

theorem fvalEx_d_pos (x : F32) : 0 < (fvalEx x).d := by
  cases x <;> simp [fvalEx, rvalEx_d_pos]

theorem fvalEx_toQ (x : F32) : toQ (fvalEx x) = fvalQ x := by
  cases x with
  | nan => simp [fvalEx, fvalQ, toQ]
  | inf s => simp [fvalEx, fvalQ, toQ]
  | zero s => simp [fvalEx, fvalQ, toQ]
  | fin s m e => simpa [fvalEx, fvalQ] using rvalEx_toQ s m e

theorem Ex.add_d_pos (a b : Ex) (ha : 0 < a.d) (hb : 0 < b.d) :
    0 < (Ex.add a b).d := mul_pos ha hb

theorem Ex.sub_d_pos (a b : Ex) (ha : 0 < a.d) (hb : 0 < b.d) :
    0 < (Ex.sub a b).d := mul_pos ha hb

theorem Ex.mul_d_pos (a b : Ex) (ha : 0 < a.d) (hb : 0 < b.d) :
    0 < (Ex.mul a b).d := mul_pos ha hb

theorem Ex.div_d_pos (a b : Ex) (ha : 0 < a.d) (hb : b.n ≠ 0) :
    0 < (Ex.div a b).d := by
  unfold Ex.div
  rcases lt_trichotomy b.n 0 with h | h | h
  · rw [if_neg (by omega), if_pos h]
    exact mul_pos ha (by omega)
  · omega
  · rw [if_pos h]
    exact mul_pos ha h

theorem Ex.add_toQ (a b : Ex) (ha : 0 < a.d) (hb : 0 < b.d) :
    toQ (Ex.add a b) = toQ a + toQ b := by
  unfold Ex.add toQ
  have ha' : ((a.d : ℚ)) ≠ 0 := by exact_mod_cast ha.ne'
  have hb' : ((b.d : ℚ)) ≠ 0 := by exact_mod_cast hb.ne'
  push_cast
  field_simp

theorem Ex.sub_toQ (a b : Ex) (ha : 0 < a.d) (hb : 0 < b.d) :
    toQ (Ex.sub a b) = toQ a - toQ b := by
  unfold Ex.sub toQ
  have ha' : ((a.d : ℚ)) ≠ 0 := by exact_mod_cast ha.ne'
  have hb' : ((b.d : ℚ)) ≠ 0 := by exact_mod_cast hb.ne'
  push_cast
  field_simp
  try ring

theorem Ex.mul_toQ (a b : Ex) :
    toQ (Ex.mul a b) = toQ a * toQ b := by
  unfold Ex.mul toQ
  push_cast
  rw [div_mul_div_comm]

theorem Ex.div_toQ (a b : Ex) (ha : 0 < a.d) (hbd : 0 < b.d) (hbn : b.n ≠ 0) :
    toQ (Ex.div a b) = toQ a / toQ b := by
  unfold Ex.div toQ
  have ha' : ((a.d : ℚ)) ≠ 0 := by exact_mod_cast ha.ne'
  have hbd' : ((b.d : ℚ)) ≠ 0 := by exact_mod_cast hbd.ne'
  have hbn' : ((b.n : ℚ)) ≠ 0 := by exact_mod_cast hbn
  rcases lt_trichotomy b.n 0 with h | h | h
  · rw [if_neg (by omega), if_pos h]
    have h1 : ((a.d * -b.n : Int) : ℚ) ≠ 0 := by
      push_cast
      intro hc
      rcases mul_eq_zero.mp hc with h2 | h2
      · exact ha' h2
      · exact hbn' (by linarith)
    push_cast at h1 ⊢
    field_simp
  · omega
  · rw [if_pos h]
    push_cast
    field_simp
    try ring

theorem rvalQ_false_pos (m : Nat) (e : Int) (hm : 1 ≤ m) :
    0 < rvalQ false m e := by
  have hm' : (0:ℚ) < m := by exact_mod_cast hm
  have h2 : (0:ℚ) < 2 ^ e := zpow_pos (by norm_num) e
  simpa [rvalQ] using mul_pos hm' h2

theorem rvalQ_true_eq (m : Nat) (e : Int) :
    rvalQ true m e = -(rvalQ false m e) := by
  simp [rvalQ]

theorem roundEx_repr (q : Ex) (s : Bool) (m : Nat) (e : Int) (hd : 0 < q.d)
    (hv : validb m e = true) (hq : toQ q = rvalQ s m e) :
    roundEx q = F32.fin s m e := by
  have hm1 : 1 ≤ m := by
    have hv' := hv
    simp only [validb, Bool.and_eq_true, decide_eq_true_eq] at hv'
    exact hv'.1.1.1.1
  have hdQ : (0:ℚ) < (q.d : ℚ) := by exact_mod_cast hd
  have hnq : (q.n : ℚ) = toQ q * (q.d : ℚ) := by
    unfold toQ
    field_simp
  cases s
  · have hpos : (0:ℚ) < (q.n : ℚ) := by
      rw [hnq, hq]
      exact mul_pos (rvalQ_false_pos m e hm1) hdQ
    have hn : 0 < q.n := by exact_mod_cast hpos
    unfold roundEx
    rw [if_neg (by omega)]
    apply roundPosN_repr _ _ m e (by omega) hv
    have c1 : ((q.n.toNat : Nat) : ℚ) = (q.n : ℚ) := by
      have h := Int.toNat_of_nonneg (le_of_lt hn)
      exact_mod_cast congrArg (fun z : Int => (z : ℚ)) h
    have c2 : ((q.d.toNat : Nat) : ℚ) = (q.d : ℚ) := by
      have h := Int.toNat_of_nonneg (le_of_lt hd)
      exact_mod_cast congrArg (fun z : Int => (z : ℚ)) h
    rw [c1, c2, ← toQ, hq]
    simp [rvalQ]
  · have hneg : (q.n : ℚ) < 0 := by
      rw [hnq, hq, rvalQ_true_eq]
      have := mul_pos (rvalQ_false_pos m e hm1) hdQ
      nlinarith
    have hn : q.n < 0 := by exact_mod_cast hneg
    unfold roundEx
    rw [if_pos hn]
    have hrep : roundPosN (-q.n).toNat q.d.toNat = F32.fin false m e := by
      apply roundPosN_repr _ _ m e (by omega) hv
      have c1 : (((-q.n).toNat : Nat) : ℚ) = ((-q.n : Int) : ℚ) := by
        have h := Int.toNat_of_nonneg (by omega : (0:Int) ≤ -q.n)
        exact_mod_cast congrArg (fun z : Int => (z : ℚ)) h
      have c2 : ((q.d.toNat : Nat) : ℚ) = (q.d : ℚ) := by
        have h := Int.toNat_of_nonneg (le_of_lt hd)
        exact_mod_cast congrArg (fun z : Int => (z : ℚ)) h
      rw [c1, c2]
      push_cast
      rw [neg_div, ← toQ, hq, rvalQ_true_eq]
      simp [rvalQ]
    rw [hrep]
    rfl

/-! ## Operator-level lemmas -/

theorem rvalEx_n_ne (s : Bool) (m : Nat) (e : Int) (hm : 1 ≤ m) :
    (rvalEx s m e).n ≠ 0 := by
  cases s
  · exact (rvalEx_n_of_false m e hm).ne'
  · exact (rvalEx_n_of_true m e hm).ne

theorem rvalQ_ne_zero (s : Bool) (m : Nat) (e : Int) (hm : 1 ≤ m) :
    rvalQ s m e ≠ 0 := by
  cases s
  · exact (rvalQ_false_pos m e hm).ne'
  · rw [rvalQ_true_eq]
    have := rvalQ_false_pos m e hm
    intro hc
    rw [neg_eq_zero] at hc
    exact this.ne' hc

theorem feq_refl_of_noNaN (x : F32) (hx : noNaNF x = true) : feq x x = true := by
  cases x with
  | nan => simp [noNaNF] at hx
  | inf s => simp [feq]
  | zero s => simp [feq]
  | fin s m e => simp [feq]

theorem vecEq_refl_of_noNaN (v : Vector3d) (hv : noNaNV v = true) :
    vecEq v v = true := by
  simp only [noNaNV, Bool.and_eq_true] at hv
  simp only [vecEq, Bool.and_eq_true]
  exact ⟨⟨feq_refl_of_noNaN _ hv.1.1, feq_refl_of_noNaN _ hv.1.2⟩,
    feq_refl_of_noNaN _ hv.2⟩

theorem Ex.add_swap (a b : Ex) : Ex.add a b = Ex.add b a := by
  unfold Ex.add
  congr 1 <;> ring

theorem faddFin_comm (x y : F32) : faddFin x y = faddFin y x := by
  unfold faddFin
  rw [Ex.add_swap]

theorem fadd_comm (x y : F32) : fadd x y = fadd y x := by
  cases x <;> cases y <;> try rfl
  case inf.inf s1 s2 => cases s1 <;> cases s2 <;> rfl
  case zero.zero s1 s2 => cases s1 <;> cases s2 <;> rfl
  case zero.fin s1 s m e => exact faddFin_comm _ _
  case fin.zero s m e s1 => exact faddFin_comm _ _
  case fin.fin s1 m1 e1 s2 m2 e2 => exact faddFin_comm _ _

theorem faddFin_pzero_fin (s : Bool) (m : Nat) (e : Int)
    (hv : validb m e = true) :
    faddFin (F32.zero false) (F32.fin s m e) = F32.fin s m e := by
  have hm1 : 1 ≤ m := by
    have hv' := hv
    simp only [validb, Bool.and_eq_true, decide_eq_true_eq] at hv'
    exact hv'.1.1.1.1
  have hne : (Ex.add (fvalEx (F32.zero false)) (fvalEx (F32.fin s m e))).n ≠ 0 := by
    have hx : (Ex.add (fvalEx (F32.zero false)) (fvalEx (F32.fin s m e))).n
        = (rvalEx s m e).n := by
      simp [Ex.add, fvalEx]
    rw [hx]
    exact rvalEx_n_ne s m e hm1
  unfold faddFin
  rw [if_neg hne]
  apply roundEx_repr _ s m e
    (Ex.add_d_pos _ _ (fvalEx_d_pos _) (fvalEx_d_pos _)) hv
  rw [Ex.add_toQ _ _ (fvalEx_d_pos _) (fvalEx_d_pos _), fvalEx_toQ, fvalEx_toQ]
  simp [fvalQ]

theorem fadd_pzero (x : F32) (hv : validF x = true) (hn : noNaNF x = true) :
    feq (fadd (F32.zero false) x) x = true := by
  cases x with
  | nan => simp [noNaNF] at hn
  | inf s => simp [fadd, feq]
  | zero s => cases s <;> simp [fadd, feq, fvalEx, Ex.add]
  | fin s m e =>
    have h : fadd (F32.zero false) (F32.fin s m e) = F32.fin s m e :=
      faddFin_pzero_fin s m e hv
    rw [h]
    exact feq_refl_of_noNaN _ (by simp [noNaNF])

theorem fsub_self (x : F32) (hf : finiteF x = true) :
    fsub x x = F32.zero false := by
  cases x with
  | nan => simp [finiteF] at hf
  | inf s => simp [finiteF] at hf
  | zero s => cases s <;> rfl
  | fin s m e =>
    have hz : (Ex.sub (fvalEx (F32.fin s m e)) (fvalEx (F32.fin s m e))).n = 0 := by
      simp [Ex.sub]
    show fsubFin (F32.fin s m e) (F32.fin s m e) = F32.zero false
    unfold fsubFin
    rw [if_pos hz]

theorem rvalEx_not (s : Bool) (m : Nat) (e : Int) :
    rvalEx (!s) m e = Ex.mk (-(rvalEx s m e).n) ((rvalEx s m e).d) := by
  rcases le_or_lt 0 e with h | h
  · cases s <;> simp [rvalEx, h]
  · cases s <;> simp [rvalEx, not_le.mpr h]

theorem Ex.sub_eq_add_neg (a b : Ex) :
    Ex.sub a b = Ex.add a (Ex.mk (-b.n) (b.d)) := by
  unfold Ex.sub Ex.add
  congr 1
  ring

theorem fvalEx_fneg (y : F32) (hy : finiteF y = true) :
    fvalEx (fneg y) = Ex.mk (-(fvalEx y).n) ((fvalEx y).d) := by
  cases y with
  | nan => simp [finiteF] at hy
  | inf s => simp [finiteF] at hy
  | zero s => simp [fvalEx, fneg]
  | fin s m e => simpa [fvalEx, fneg] using rvalEx_not s m e

theorem fsubFin_eq_fadd (x y : F32) (hy : finiteF y = true) :
    fsubFin x y = faddFin x (fneg y) := by
  unfold fsubFin faddFin
  rw [fvalEx_fneg y hy, Ex.sub_eq_add_neg]

theorem fsub_eq_fadd_fneg (x y : F32) : fsub x y = fadd x (fneg y) := by
  cases x <;> cases y <;> try rfl
  case inf.inf s1 s2 => cases s1 <;> cases s2 <;> rfl
  case zero.fin s1 s m e => exact fsubFin_eq_fadd _ _ rfl
  case fin.zero s m e s1 => exact fsubFin_eq_fadd _ _ rfl
  case fin.fin s1 m1 e1 s2 m2 e2 => exact fsubFin_eq_fadd _ _ rfl


theorem two_pow23_cast : (((2 ^ 23 : Nat)) : ℚ) = (2:ℚ) ^ (23 : Int) := by
  rw [show (23:Int) = ((23:Nat):Int) from rfl, zpow_natCast]
  push_cast
  norm_num

theorem rvalQ_negone : rvalQ true (2 ^ 23) (-23) = -1 := by
  unfold rvalQ
  rw [if_pos rfl, two_pow23_cast]
  have hz : (2:ℚ) ^ (23:Int) * 2 ^ (-23:Int) = 1 := by
    rw [← zpow_add₀ (by norm_num : (2:ℚ) ≠ 0)]
    norm_num
  calc (-1:ℚ) * 2 ^ (23:Int) * 2 ^ (-23:Int)
      = -(2 ^ (23:Int) * 2 ^ (-23:Int)) := by ring
    _ = -1 := by rw [hz]

theorem rvalQ_mul_negone (s : Bool) (m : Nat) (e : Int) :
    rvalQ s m e * rvalQ true (2 ^ 23) (-23) = rvalQ (!s) m e := by
  rw [rvalQ_negone]
  cases s <;> simp [rvalQ]

theorem fmul_negone (x : F32) (hv : validF x = true) :
    fmul x fnegone = fneg x := by
  cases x with
  | nan => rfl
  | inf s => cases s <;> rfl
  | zero s => cases s <;> rfl
  | fin s m e =>
    show roundEx (Ex.mul (rvalEx s m e) (rvalEx true (2 ^ 23) (-23)))
      = F32.fin (!s) m e
    apply roundEx_repr _ (!s) m e
      (Ex.mul_d_pos _ _ (rvalEx_d_pos _ _ _) (rvalEx_d_pos _ _ _)) hv
    rw [Ex.mul_toQ, rvalEx_toQ, rvalEx_toQ]
    exact rvalQ_mul_negone s m e

theorem zpow_mergeQ (x y : Int) : (2:ℚ) ^ x * (2:ℚ) ^ y = 2 ^ (x + y) :=
  (zpow_add₀ (by norm_num : (2:ℚ) ≠ 0) x y).symm

theorem rvalQ_mul_pow2 (sx ss : Bool) (m : Nat) (e es : Int) :
    rvalQ sx m e * rvalQ ss (2 ^ 23) es
      = rvalQ (Bool.xor sx ss) m (e + (es + 23)) := by
  unfold rvalQ
  rw [two_pow23_cast,
    show e + (es + 23) = e + (23 + es) from by ring,
    ← zpow_mergeQ e (23 + es), ← zpow_mergeQ 23 es]
  cases sx <;> cases ss <;> simp <;> ring

theorem pow2_roundtrip_fin (sx ss : Bool) (m : Nat) (e es : Int)
    (h1 : validb m e = true) (h2 : validb m (e + (es + 23)) = true) :
    fdiv (fmul (F32.fin sx m e) (F32.fin ss (2 ^ 23) es)) (F32.fin ss (2 ^ 23) es)
      = F32.fin sx m e := by
  have hp23 : 1 ≤ 2 ^ 23 := Nat.one_le_pow _ _ (by norm_num)
  have hmul : fmul (F32.fin sx m e) (F32.fin ss (2 ^ 23) es)
      = F32.fin (Bool.xor sx ss) m (e + (es + 23)) := by
    show roundEx (Ex.mul (rvalEx sx m e) (rvalEx ss (2 ^ 23) es)) = _
    apply roundEx_repr _ _ m (e + (es + 23))
      (Ex.mul_d_pos _ _ (rvalEx_d_pos _ _ _) (rvalEx_d_pos _ _ _)) h2
    rw [Ex.mul_toQ, rvalEx_toQ, rvalEx_toQ]
    exact rvalQ_mul_pow2 sx ss m e es
  rw [hmul]
  show roundEx (Ex.div (rvalEx (Bool.xor sx ss) m (e + (es + 23)))
    (rvalEx ss (2 ^ 23) es)) = _
  apply roundEx_repr _ _ m e
    (Ex.div_d_pos _ _ (rvalEx_d_pos _ _ _) (rvalEx_n_ne _ _ _ hp23)) h1
  rw [Ex.div_toQ _ _ (rvalEx_d_pos _ _ _) (rvalEx_d_pos _ _ _)
    (rvalEx_n_ne _ _ _ hp23), rvalEx_toQ, rvalEx_toQ]
  rw [div_eq_iff (rvalQ_ne_zero ss (2 ^ 23) es hp23)]
  rw [rvalQ_mul_pow2 sx ss m e es]

theorem pow2_roundtrip_zero (s0 ss : Bool) (es : Int) :
    fdiv (fmul (F32.zero s0) (F32.fin ss (2 ^ 23) es)) (F32.fin ss (2 ^ 23) es)
      = F32.zero s0 := by
  cases s0 <;> cases ss <;> rfl

/-! ## The claims -/

/-- C1: `add(a, b)` returns a new vector whose fields are
`(a.x+b.x, a.y+b.y, a.z+b.z)` — componentwise IEEE-754 addition — and, the
operation being a pure function of its operands (Rust `Add` takes both by
value), neither operand is mutated; concretely
`new(1,2,3) + new(2,4,6) = (3,6,9)`. -/
theorem claim_C1 :
    (∀ a b : Vector3d, Vector3d.add a b
      = Vector3d.new (fadd a.x b.x) (fadd a.y b.y) (fadd a.z b.z))
    ∧ Vector3d.add v123 v246 = v369 :=
  ⟨fun _ _ => rfl, by decide⟩

/-- C2, counterexample: the claim quantifies over all vectors including
NaN components, but `zero() + v == v` fails at `v = (NaN, 0, 0)` because
IEEE-754 `==` makes NaN unequal to itself. -/
theorem claim_C2_counterexample :
    vecEq (Vector3d.add Vector3d.zero vNaN) vNaN = false := by decide

/-- C2, amended: for every well-formed vector `v`, `zero() + v == v` holds
when no component of `v` is NaN, and `v - v == zero()` holds when every
component is finite (NaN components make both fail, and infinite components
make `v - v` produce NaN). -/
theorem claim_C2 (v : Vector3d) (hv : validV v = true) :
    (noNaNV v = true → vecEq (Vector3d.add Vector3d.zero v) v = true)
    ∧ (finiteV v = true → vecEq (Vector3d.sub v v) Vector3d.zero = true) := by
  simp only [validV, Bool.and_eq_true] at hv
  constructor
  · intro hn
    simp only [noNaNV, Bool.and_eq_true] at hn
    simp only [vecEq, Bool.and_eq_true]
    exact ⟨⟨fadd_pzero v.x hv.1.1 hn.1.1, fadd_pzero v.y hv.1.2 hn.1.2⟩,
      fadd_pzero v.z hv.2 hn.2⟩
  · intro hf
    simp only [finiteV, Bool.and_eq_true] at hf
    simp only [vecEq, Bool.and_eq_true]
    refine ⟨⟨?_, ?_⟩, ?_⟩
    · show feq (fsub v.x v.x) (F32.zero false) = true
      rw [fsub_self v.x hf.1.1]; rfl
    · show feq (fsub v.y v.y) (F32.zero false) = true
      rw [fsub_self v.y hf.1.2]; rfl
    · show feq (fsub v.z v.z) (F32.zero false) = true
      rw [fsub_self v.z hf.2]; rfl

/-- C2, witness: the amended claim applied at the concrete vector
`(1, 2, 3)`. -/
theorem claim_C2_witness :
    vecEq (Vector3d.add Vector3d.zero v123) v123 = true
    ∧ vecEq (Vector3d.sub v123 v123) Vector3d.zero = true :=
  ⟨(claim_C2 v123 (by decide)).1 (by decide),
   (claim_C2 v123 (by decide)).2 (by decide)⟩

/-- C3, counterexample: with a NaN component, `a + b == b + a` fails under
componentwise `f32` equality (NaN compares unequal to everything), even
though the two sums are bitwise identical. -/
theorem claim_C3_counterexample :
    vecEq (Vector3d.add vNaN v123) (Vector3d.add v123 vNaN) = false := by
  decide

/-- C3, amended: `a + b` and `b + a` are always identical vectors (IEEE-754
addition is commutative, including the signed-zero and NaN rules), and the
`==` comparison `a + b == b + a` holds exactly when no component of the sum
is NaN. -/
theorem claim_C3 (a b : Vector3d) :
    Vector3d.add a b = Vector3d.add b a
    ∧ (noNaNV (Vector3d.add a b) = true →
        vecEq (Vector3d.add a b) (Vector3d.add b a) = true) := by
  have hc : Vector3d.add a b = Vector3d.add b a := by
    show Vector3d.new _ _ _ = Vector3d.new _ _ _
    rw [fadd_comm a.x b.x, fadd_comm a.y b.y, fadd_comm a.z b.z]
  refine ⟨hc, fun hn => ?_⟩
  rw [← hc]
  exact vecEq_refl_of_noNaN _ hn

/-- C3, witness: commutativity at the concrete vectors `(1,2,3)` and
`(2,4,6)`. -/
theorem claim_C3_witness :
    Vector3d.add v123 v246 = Vector3d.add v246 v123
    ∧ vecEq (Vector3d.add v123 v246) (Vector3d.add v246 v123) = true :=
  ⟨(claim_C3 v123 v246).1, (claim_C3 v123 v246).2 (by decide)⟩

/-- C4, counterexample: `(v * s) / s == v` fails for `s = 4.0 ≠ 0` at
`v = (2^127, 0, 0)`: the product overflows to `+∞` and `∞ / 4 = ∞`, which
is not within any floating-point precision of `2^127`. -/
theorem claim_C4_counterexample :
    (Vector3d.div (Vector3d.mul vBig ffour) ffour).x = F32.inf false
    ∧ vecEq (Vector3d.div (Vector3d.mul vBig ffour) ffour) vBig = false :=
  ⟨by decide, by decide⟩

/-- C4, amended: scalar multiplication and division are mutually inverse
for a power-of-two scalar `s = ±2^(es+23)` (significand `2^23`, scale
`es`), provided each component of `v` stays representable when its scale is
shifted by `es + 23` (no overflow and no underflow): then `(v * s) / s` is
`v` exactly, bitwise, and in particular `(v * s) / s == v`.  For general
scalars the round trip can fail outright, as the overflow counterexample
shows. -/
theorem claim_C4 (v : Vector3d) (ss : Bool) (es : Int)
    (h : p2okV v (es + 23) = true) :
    Vector3d.div (Vector3d.mul v (F32.fin ss (2 ^ 23) es))
      (F32.fin ss (2 ^ 23) es) = v
    ∧ vecEq (Vector3d.div (Vector3d.mul v (F32.fin ss (2 ^ 23) es))
        (F32.fin ss (2 ^ 23) es)) v = true := by
  simp only [p2okV, Bool.and_eq_true] at h
  have hcomp : ∀ x : F32, p2ok x (es + 23) = true →
      fdiv (fmul x (F32.fin ss (2 ^ 23) es)) (F32.fin ss (2 ^ 23) es) = x := by
    intro x hx
    cases x with
    | nan => simp [p2ok] at hx
    | inf s => simp [p2ok] at hx
    | zero s => exact pow2_roundtrip_zero s ss es
    | fin s m e =>
      simp only [p2ok, Bool.and_eq_true] at hx
      exact pow2_roundtrip_fin s ss m e es hx.1 hx.2
  have hnn : ∀ x : F32, p2ok x (es + 23) = true → noNaNF x = true := by
    intro x hx
    cases x <;> simp_all [p2ok, noNaNF]
  have hstruct : Vector3d.div (Vector3d.mul v (F32.fin ss (2 ^ 23) es))
      (F32.fin ss (2 ^ 23) es) = v := by
    cases v with
    | mk x y z =>
      show Vector3d.new
          (fdiv (fmul x (F32.fin ss (2 ^ 23) es)) (F32.fin ss (2 ^ 23) es))
          (fdiv (fmul y (F32.fin ss (2 ^ 23) es)) (F32.fin ss (2 ^ 23) es))
          (fdiv (fmul z (F32.fin ss (2 ^ 23) es)) (F32.fin ss (2 ^ 23) es))
        = Vector3d.mk x y z
      rw [hcomp x h.1.1, hcomp y h.1.2, hcomp z h.2]
      rfl
  refine ⟨hstruct, ?_⟩
  rw [hstruct]
  apply vecEq_refl_of_noNaN
  simp only [noNaNV, Bool.and_eq_true]
  exact ⟨⟨hnn _ h.1.1, hnn _ h.1.2⟩, hnn _ h.2⟩

/-- C4, witness: the amended claim at `v = (1,2,3)` and `s = 2.0`
(significand `2^23`, scale `-22`). -/
theorem claim_C4_witness :
    Vector3d.div (Vector3d.mul v123 (F32.fin false (2 ^ 23) (-22)))
      (F32.fin false (2 ^ 23) (-22)) = v123 :=
  (claim_C4 v123 false (-22) (by decide)).1

/-- C5: division is total — in the model every operation is a total
function — the in-place form agrees with the pure form for every scalar,
dividing by a zero scalar puts only infinities or NaNs (per IEEE-754) in
the result fields, and dividing by NaN propagates NaN to every field; no
error is raised anywhere. -/
theorem claim_C5 (a : Vector3d) (s : F32) :
    Vector3d.div_assign a s = Vector3d.div a s
    ∧ ((s = F32.zero false ∨ s = F32.zero true) →
        (infOrNaN (Vector3d.div a s).x = true
          ∧ infOrNaN (Vector3d.div a s).y = true
          ∧ infOrNaN (Vector3d.div a s).z = true))
    ∧ (s = F32.nan → Vector3d.div a s = Vector3d.new F32.nan F32.nan F32.nan) := by
  refine ⟨rfl, ?_, ?_⟩
  · intro hs
    have hcomp : ∀ (x : F32) (sb : Bool), infOrNaN (fdiv x (F32.zero sb)) = true := by
      intro x sb
      cases x <;> rfl
    rcases hs with h | h <;> subst h <;> exact ⟨hcomp _ _, hcomp _ _, hcomp _ _⟩
  · intro hs
    subst hs
    have hcomp : ∀ x : F32, fdiv x F32.nan = F32.nan := by
      intro x
      cases x <;> rfl
    show Vector3d.new _ _ _ = _
    rw [hcomp, hcomp, hcomp]

/-- C5, witness: division of `(1,2,3)` by `0.0` and by NaN. -/
theorem claim_C5_witness :
    Vector3d.div_assign v123 (F32.zero false) = Vector3d.div v123 (F32.zero false)
    ∧ infOrNaN (Vector3d.div v123 (F32.zero false)).x = true
    ∧ Vector3d.div v123 F32.nan = Vector3d.new F32.nan F32.nan F32.nan :=
  ⟨(claim_C5 v123 (F32.zero false)).1,
   ((claim_C5 v123 (F32.zero false)).2.1 (Or.inl rfl)).1,
   (claim_C5 v123 F32.nan).2.2 rfl⟩

/-- C6: each in-place operation leaves the receiver exactly equal to the
pure operation applied to the receiver's prior value and the unchanged
argument; in the model the receiver's new state is the function's result
and arguments are never mutated (explicit state passing). -/
theorem claim_C6 (a b : Vector3d) (s : F32) :
    Vector3d.add_assign a b = Vector3d.add a b
    ∧ Vector3d.sub_assign a b = Vector3d.sub a b
    ∧ Vector3d.mul_assign a s = Vector3d.mul a s
    ∧ Vector3d.div_assign a s = Vector3d.div a s :=
  ⟨rfl, rfl, rfl, rfl⟩

/-- C7: `new(x, y, z)` always succeeds and stores the coordinates exactly
as supplied; `zero()` is `new(0.0, 0.0, 0.0)`, whose fields all have value
`0`. -/
theorem claim_C7 :
    (∀ x y z : F32, (Vector3d.new x y z).x = x ∧ (Vector3d.new x y z).y = y
      ∧ (Vector3d.new x y z).z = z)
    ∧ Vector3d.zero
      = Vector3d.new (F32.zero false) (F32.zero false) (F32.zero false)
    ∧ fvalQ Vector3d.zero.x = 0 ∧ fvalQ Vector3d.zero.y = 0
    ∧ fvalQ Vector3d.zero.z = 0 :=
  ⟨fun _ _ _ => ⟨rfl, rfl, rfl⟩, rfl, rfl, rfl, rfl⟩

/-- C8: `mul(a, s)` is `(a.x*s, a.y*s, a.z*s)` — componentwise IEEE-754
multiplication by the scalar — and mutates nothing (pure function);
concretely `new(1,2,3) * 2.0 = (2,4,6)`. -/
theorem claim_C8 :
    (∀ (a : Vector3d) (s : F32), Vector3d.mul a s
      = Vector3d.new (fmul a.x s) (fmul a.y s) (fmul a.z s))
    ∧ Vector3d.mul v123 (fofNat 2) = v246 :=
  ⟨fun _ _ => rfl, by decide⟩

/-- C9: every operation of the model is a mathematical function of its
inputs, hence deterministic: equal inputs (and equal initial receiver
states for the in-place forms) give equal outputs and equal final
states. -/
theorem claim_C9 (a a' b b' : Vector3d) (s s' : F32)
    (ha : a = a') (hb : b = b') (hs : s = s') :
    Vector3d.new a.x a.y a.z = Vector3d.new a'.x a'.y a'.z
    ∧ Vector3d.add a b = Vector3d.add a' b'
    ∧ Vector3d.sub a b = Vector3d.sub a' b'
    ∧ Vector3d.mul a s = Vector3d.mul a' s'
    ∧ Vector3d.div a s = Vector3d.div a' s'
    ∧ Vector3d.add_assign a b = Vector3d.add_assign a' b'
    ∧ Vector3d.sub_assign a b = Vector3d.sub_assign a' b'
    ∧ Vector3d.mul_assign a s = Vector3d.mul_assign a' s'
    ∧ Vector3d.div_assign a s = Vector3d.div_assign a' s' := by
  subst ha
  subst hb
  subst hs
  exact ⟨rfl, rfl, rfl, rfl, rfl, rfl, rfl, rfl, rfl⟩

/-- C9, witness: determinism at the concrete vectors `(1,2,3)`, `(2,4,6)`
and scalar `2.0`. -/
theorem claim_C9_witness :
    Vector3d.add v123 v246 = Vector3d.add v123 v246
    ∧ Vector3d.div_assign v123 (fofNat 2) = Vector3d.div_assign v123 (fofNat 2) :=
  ⟨(claim_C9 v123 v123 v246 v246 (fofNat 2) (fofNat 2) rfl rfl rfl).2.1,
   (claim_C9 v123 v123 v246 v246 (fofNat 2) (fofNat 2) rfl rfl rfl).2.2.2.2.2.2.2.2⟩

/-- C10: `sub(a, b)` equals `add(a, mul(b, -1.0))` — bitwise, i.e. as
identical vectors in the model — for every `a` and every well-formed `b`:
IEEE-754 subtraction is addition of the negated operand, and multiplying a
binary32 value by `-1.0` is the exact negation. -/
theorem claim_C10 (a b : Vector3d) (hb : validV b = true) :
    Vector3d.sub a b = Vector3d.add a (Vector3d.mul b fnegone) := by
  simp only [validV, Bool.and_eq_true] at hb
  show Vector3d.new (fsub a.x b.x) (fsub a.y b.y) (fsub a.z b.z)
    = Vector3d.new (fadd a.x (fmul b.x fnegone)) (fadd a.y (fmul b.y fnegone))
      (fadd a.z (fmul b.z fnegone))
  rw [show fmul b.x fnegone = fneg b.x from fmul_negone b.x hb.1.1,
    show fmul b.y fnegone = fneg b.y from fmul_negone b.y hb.1.2,
    show fmul b.z fnegone = fneg b.z from fmul_negone b.z hb.2,
    fsub_eq_fadd_fneg a.x b.x, fsub_eq_fadd_fneg a.y b.y,
    fsub_eq_fadd_fneg a.z b.z]

/-- C10, witness: at the concrete vectors `(1,2,3)` and `(2,4,6)`. -/
theorem claim_C10_witness :
    Vector3d.sub v123 v246 = Vector3d.add v123 (Vector3d.mul v246 fnegone) :=
  claim_C10 v123 v246 (by decide)
